import Mathlib

/-!
Shallow embedding of the smoothing-voter sensor group
(custom_components/smoothing_voter/sensor.py).

Readings are modelled as rationals (ℚ).  The Python function
`smoothing_voter` raises `ValueError` for fewer than three inputs; this is
modelled with `Except String`.  Classifications are the Python strings
"median", "smoothed", "none".
-/

deriving instance DecidableEq for Except

namespace SmoothingVoter

/-- Window length `m = (n + 1) // 2` from sensor.py line 44 (Python integer
floor division). -/
def subsetLen (n : ℕ) : ℕ := (n + 1) / 2

/-- Python `max` of a nonempty list (0 as junk value on the empty list,
which the source never queries). -/
def listMax : List ℚ → ℚ
  | [] => 0
  | x :: xs => List.foldl max x xs

/-- Python `min` of a nonempty list. -/
def listMin : List ℚ → ℚ
  | [] => 0
  | x :: xs => List.foldl min x xs

/-- The acceptance test of sensor.py line 47:
`max(subset) - min(subset) <= voter_threshold`, where
`subset = sorted_inputs[i : i + m]`. -/
def windowQualifies (s : List ℚ) (m i : ℕ) (vt : ℚ) : Bool :=
  listMax ((s.drop i).take m) - listMin ((s.drop i).take m) ≤ vt

/-- The `for i in range(...)` loop of sensor.py lines 45-49: scan offsets
`i, i+1, ...` (`fuel` many); on the first qualifying window return
`subset[m // 2]`. -/
def scanWindows (s : List ℚ) (m : ℕ) (vt : ℚ) : ℕ → ℕ → Option ℚ
  | 0, _ => none
  | fuel + 1, i =>
    if windowQualifies s m i vt then some (((s.drop i).take m).getD (m / 2) 0)
    else scanWindows s m vt fuel (i + 1)

/-- Python `sorted(inputs)` (sensor.py line 43): sort ascending. -/
def sorted_inputs (inputs : List ℚ) : List ℚ :=
  List.insertionSort (· ≤ ·) inputs

/-- One step of Python `min(inputs, key=lambda x: abs(x - prev_output))`:
keep the current best unless the new element is strictly closer (Python's
`min` keeps the first element attaining the minimal key). -/
def closerTo (p best y : ℚ) : ℚ :=
  if |y - p| < |best - p| then y else best

/-- Python `min(inputs, key=lambda x: abs(x - prev_output))`
(sensor.py line 53); 0 is a junk value on the empty list, which the
source never reaches. -/
def minByDist (p : ℚ) : List ℚ → ℚ
  | [] => 0
  | x :: xs => List.foldl (closerTo p) x xs

/-- The `smoothing_voter` algorithm of sensor.py lines 25-58 (the Python
locals `n = len(inputs)` and `closest_input = min(...)` are inlined). -/
def smoothing_voter (inputs : List ℚ) (prev_output : Option ℚ)
    (voter_threshold smoothing_threshold : ℚ) :
    Except String (Option ℚ × String) :=
  if inputs.length < 3 then
    Except.error "Smoothing voter requires at least three inputs."
  else
    match scanWindows (sorted_inputs inputs) (subsetLen inputs.length)
        voter_threshold (inputs.length - subsetLen inputs.length + 1) 0 with
    | some v => Except.ok (some v, "median")
    | none =>
      match prev_output with
      | none =>
        Except.ok (some ((sorted_inputs inputs).getD (inputs.length / 2) 0), "median")
      | some p =>
        if |minByDist p inputs - p| ≤ smoothing_threshold then
          Except.ok (some (minByDist p inputs), "smoothed")
        else
          Except.ok (none, "none")

/-- The mutable attributes of `SmoothingVoterSensorGroup` touched by
`async_update_group_state` (sensor.py lines 86-89, 124-145). -/
structure GroupState where
  prev_output : Option ℚ
  native_value : Option ℚ
  calculation_type : String
  available : Bool

/-- The tail of `SmoothingVoterSensorGroup.async_update_group_state`
(sensor.py lines 124-145), starting from the gathered numeric
`sensor_values`: set availability, guard, call `smoothing_voter`, store
the result, and overwrite `prev_output` only when the new value is
non-null.  The `except ValueError` handler is the last branch. -/
def async_update_group_state (st : GroupState)
    (voter_threshold smoothing_threshold : ℚ)
    (sensor_values : List ℚ) : GroupState :=
  if !sensor_values.isEmpty && decide (3 ≤ sensor_values.length) then
    match smoothing_voter sensor_values st.prev_output voter_threshold
        smoothing_threshold with
    | Except.ok (new_val, calc_type) =>
      { st with
        available := true
        native_value := new_val
        calculation_type := calc_type
        prev_output := if new_val.isSome then new_val else st.prev_output }
    | Except.error _ =>
      { st with
        available := true
        native_value := none
        calculation_type := "none" }
  else
    { st with
      available := false
      native_value := none
      calculation_type := "none" }

/-! ## Helper lemmas about the window scan -/

lemma scanWindows_eq_none (s : List ℚ) (m : ℕ) (vt : ℚ) :
    ∀ (fuel i : ℕ), (∀ j, i ≤ j → j < i + fuel → windowQualifies s m j vt = false) →
    scanWindows s m vt fuel i = none := by
  intro fuel
  induction fuel with
  | zero => intro i _; rfl
  | succ k ih =>
    intro i h
    have h0 : windowQualifies s m i vt = false := h i le_rfl (by omega)
    rw [scanWindows, h0]
    simp only [Bool.false_eq_true, if_false]
    exact ih (i + 1) (fun j hj hj2 => h j (by omega) (by omega))

lemma scanWindows_eq_some (s : List ℚ) (m : ℕ) (vt : ℚ) :
    ∀ (fuel i : ℕ) (v : ℚ), scanWindows s m vt fuel i = some v →
    ∃ j, i ≤ j ∧ j < i + fuel ∧ windowQualifies s m j vt = true ∧
      v = ((s.drop j).take m).getD (m / 2) 0 := by
  intro fuel
  induction fuel with
  | zero => intro i v h; simp [scanWindows] at h
  | succ k ih =>
    intro i v h
    rw [scanWindows] at h
    cases hq : windowQualifies s m i vt with
    | true =>
      rw [hq] at h
      simp only [if_true] at h
      exact ⟨i, le_rfl, by omega, hq, (Option.some.inj h).symm⟩
    | false =>
      rw [hq] at h
      simp only [Bool.false_eq_true, if_false] at h
      obtain ⟨j, hj1, hj2, hj3, hj4⟩ := ih (i + 1) v h
      exact ⟨j, by omega, by omega, hj3, hj4⟩

lemma scanWindows_first (s : List ℚ) (m : ℕ) (vt : ℚ) :
    ∀ (fuel i j : ℕ), i ≤ j → j < i + fuel →
    windowQualifies s m j vt = true →
    (∀ k, i ≤ k → k < j → windowQualifies s m k vt = false) →
    scanWindows s m vt fuel i = some (((s.drop j).take m).getD (m / 2) 0) := by
  intro fuel
  induction fuel with
  | zero => intro i j h1 h2 _ _; omega
  | succ f ih =>
    intro i j h1 h2 hq hmin
    rw [scanWindows]
    rcases Nat.eq_or_lt_of_le h1 with rfl | hlt
    · rw [hq]; simp only [if_true]
    · have h0 : windowQualifies s m i vt = false := hmin i le_rfl hlt
      rw [h0]
      simp only [Bool.false_eq_true, if_false]
      exact ih (i + 1) j hlt (by omega) hq (fun k hk1 hk2 => hmin k (by omega) hk2)

/-! ## Helper lemmas about listMax, listMin -/

lemma foldl_max_init_le (xs : List ℚ) : ∀ b : ℚ, b ≤ xs.foldl max b := by
  induction xs with
  | nil => intro b; exact le_rfl
  | cons y ys ih => intro b; exact le_trans (le_max_left b y) (ih (max b y))

lemma le_foldl_max (xs : List ℚ) : ∀ (b y : ℚ), y ∈ xs → y ≤ xs.foldl max b := by
  induction xs with
  | nil => intro b y h; cases h
  | cons z zs ih =>
    intro b y h
    rcases List.mem_cons.1 h with rfl | h2
    · exact le_trans (le_max_right b y) (foldl_max_init_le zs (max b y))
    · exact ih (max b z) y h2

lemma foldl_max_mem (xs : List ℚ) : ∀ b : ℚ, xs.foldl max b = b ∨ xs.foldl max b ∈ xs := by
  induction xs with
  | nil => intro b; exact Or.inl rfl
  | cons y ys ih =>
    intro b
    rcases ih (max b y) with h | h
    · rcases max_choice b y with hm | hm
      · exact Or.inl (by rw [List.foldl_cons, h, hm])
      · exact Or.inr (by rw [List.foldl_cons, h, hm]; exact List.mem_cons_self y ys)
    · exact Or.inr (List.mem_cons_of_mem y h)

lemma foldl_min_le_init (xs : List ℚ) : ∀ b : ℚ, xs.foldl min b ≤ b := by
  induction xs with
  | nil => intro b; exact le_rfl
  | cons y ys ih => intro b; exact le_trans (ih (min b y)) (min_le_left b y)

lemma foldl_min_le (xs : List ℚ) : ∀ (b y : ℚ), y ∈ xs → xs.foldl min b ≤ y := by
  induction xs with
  | nil => intro b y h; cases h
  | cons z zs ih =>
    intro b y h
    rcases List.mem_cons.1 h with rfl | h2
    · exact le_trans (foldl_min_le_init zs (min b y)) (min_le_right b y)
    · exact ih (min b z) y h2

lemma foldl_min_mem (xs : List ℚ) : ∀ b : ℚ, xs.foldl min b = b ∨ xs.foldl min b ∈ xs := by
  induction xs with
  | nil => intro b; exact Or.inl rfl
  | cons y ys ih =>
    intro b
    rcases ih (min b y) with h | h
    · rcases min_choice b y with hm | hm
      · exact Or.inl (by rw [List.foldl_cons, h, hm])
      · exact Or.inr (by rw [List.foldl_cons, h, hm]; exact List.mem_cons_self y ys)
    · exact Or.inr (List.mem_cons_of_mem y h)

lemma listMax_mem {l : List ℚ} (h : l ≠ []) : listMax l ∈ l := by
  cases l with
  | nil => exact absurd rfl h
  | cons x xs =>
    rcases foldl_max_mem xs x with h2 | h2
    · rw [listMax, h2]; exact List.mem_cons_self x xs
    · rw [listMax]; exact List.mem_cons_of_mem x h2

lemma le_listMax {l : List ℚ} {y : ℚ} (h : y ∈ l) : y ≤ listMax l := by
  cases l with
  | nil => cases h
  | cons x xs =>
    rcases List.mem_cons.1 h with rfl | h2
    · exact foldl_max_init_le xs y
    · exact le_foldl_max xs x y h2

lemma listMin_mem {l : List ℚ} (h : l ≠ []) : listMin l ∈ l := by
  cases l with
  | nil => exact absurd rfl h
  | cons x xs =>
    rcases foldl_min_mem xs x with h2 | h2
    · rw [listMin, h2]; exact List.mem_cons_self x xs
    · rw [listMin]; exact List.mem_cons_of_mem x h2

lemma listMin_le {l : List ℚ} {y : ℚ} (h : y ∈ l) : listMin l ≤ y := by
  cases l with
  | nil => cases h
  | cons x xs =>
    rcases List.mem_cons.1 h with rfl | h2
    · exact foldl_min_le_init xs y
    · exact foldl_min_le xs x y h2

/-! ## Helper lemmas about slices of a sorted list -/

lemma slice_length (s : List ℚ) (i m : ℕ) (h : i + m ≤ s.length) :
    ((s.drop i).take m).length = m := by
  simp only [List.length_take, List.length_drop]
  omega

lemma slice_getD (s : List ℚ) (i m j : ℕ) (hj : j < m) (h : i + m ≤ s.length) :
    ((s.drop i).take m).getD j 0 = s.getD (i + j) 0 := by
  have h1 : j < ((s.drop i).take m).length := by rw [slice_length s i m h]; exact hj
  have h2 : i + j < s.length := by omega
  rw [List.getD_eq_getElem _ _ h1, List.getD_eq_getElem _ _ h2]
  rw [List.getElem_take, List.getElem_drop]

lemma getD_mem {l : List ℚ} {j : ℕ} (h : j < l.length) : l.getD j 0 ∈ l := by
  rw [List.getD_eq_getElem _ _ h]
  exact List.getElem_mem h

lemma sorted_getD_mono {s : List ℚ} (hs : s.Sorted (· ≤ ·)) {a b : ℕ}
    (hab : a ≤ b) (hb : b < s.length) : s.getD a 0 ≤ s.getD b 0 := by
  have ha : a < s.length := lt_of_le_of_lt hab hb
  rw [List.getD_eq_getElem _ _ ha, List.getD_eq_getElem _ _ hb]
  exact hs.rel_get_of_le (a := ⟨a, ha⟩) (b := ⟨b, hb⟩) hab

lemma sorted_slice_max {s : List ℚ} (hs : s.Sorted (· ≤ ·)) {i m : ℕ}
    (hm : 1 ≤ m) (h : i + m ≤ s.length) :
    listMax ((s.drop i).take m) = s.getD (i + (m - 1)) 0 := by
  have hlen : ((s.drop i).take m).length = m := slice_length s i m h
  have hne : (s.drop i).take m ≠ [] := by
    intro hcon; rw [hcon] at hlen; simp at hlen; omega
  apply le_antisymm
  · obtain ⟨j, hj, hgj⟩ := List.getElem_of_mem (listMax_mem hne)
    rw [hlen] at hj
    have : listMax ((s.drop i).take m) = s.getD (i + j) 0 := by
      rw [← slice_getD s i m j hj h, List.getD_eq_getElem _ _ (by rw [hlen]; exact hj)]
      exact hgj.symm
    rw [this]
    exact sorted_getD_mono hs (by omega) (by omega)
  · have : s.getD (i + (m - 1)) 0 = ((s.drop i).take m).getD (m - 1) 0 :=
      (slice_getD s i m (m - 1) (by omega) h).symm
    rw [this]
    exact le_listMax (getD_mem (by omega))

lemma sorted_slice_min {s : List ℚ} (hs : s.Sorted (· ≤ ·)) {i m : ℕ}
    (hm : 1 ≤ m) (h : i + m ≤ s.length) :
    listMin ((s.drop i).take m) = s.getD i 0 := by
  have hlen : ((s.drop i).take m).length = m := slice_length s i m h
  have hne : (s.drop i).take m ≠ [] := by
    intro hcon; rw [hcon] at hlen; simp at hlen; omega
  apply le_antisymm
  · have : s.getD i 0 = ((s.drop i).take m).getD 0 0 := by
      rw [slice_getD s i m 0 (by omega) h]; rw [Nat.add_zero]
    rw [this]
    exact listMin_le (getD_mem (by omega))
  · obtain ⟨j, hj, hgj⟩ := List.getElem_of_mem (listMin_mem hne)
    rw [hlen] at hj
    have : listMin ((s.drop i).take m) = s.getD (i + j) 0 := by
      rw [← slice_getD s i m j hj h, List.getD_eq_getElem _ _ (by rw [hlen]; exact hj)]
      exact hgj.symm
    rw [this]
    exact sorted_getD_mono hs (by omega) (by omega)

lemma windowQualifies_sorted {s : List ℚ} (hs : s.Sorted (· ≤ ·)) {i m : ℕ} {vt : ℚ}
    (hm : 1 ≤ m) (h : i + m ≤ s.length) :
    windowQualifies s m i vt = true ↔ s.getD (i + m - 1) 0 - s.getD i 0 ≤ vt := by
  have he : i + m - 1 = i + (m - 1) := by omega
  rw [windowQualifies, decide_eq_true_iff, sorted_slice_max hs hm h,
    sorted_slice_min hs hm h, he]

/-! ## Helper lemmas about minByDist (Python min with key, first minimum wins) -/

lemma foldl_closerTo_spec (p : ℚ) (xs : List ℚ) :
    ∀ b : ℚ, ∃ l₁ l₂ : List ℚ,
      b :: xs = l₁ ++ xs.foldl (closerTo p) b :: l₂ ∧
      (∀ y ∈ b :: xs, |xs.foldl (closerTo p) b - p| ≤ |y - p|) ∧
      (∀ y ∈ l₁, |xs.foldl (closerTo p) b - p| < |y - p|) := by
  induction xs with
  | nil =>
    intro b
    refine ⟨[], [], rfl, ?_, ?_⟩
    · intro y hy
      rcases List.mem_cons.1 hy with rfl | h2
      · exact le_rfl
      · cases h2
    · intro y hy; cases hy
  | cons y ys ih =>
    intro b
    rw [List.foldl_cons]
    by_cases hc : |y - p| < |b - p|
    · have hb' : closerTo p b y = y := if_pos hc
      rw [hb']
      obtain ⟨l₁, l₂, hdec, hmin, hstrict⟩ := ih y
      refine ⟨b :: l₁, l₂, ?_, ?_, ?_⟩
      · rw [List.cons_append, ← hdec]
      · intro z hz
        rcases List.mem_cons.1 hz with rfl | hz2
        · exact le_of_lt (lt_of_le_of_lt (hmin y (List.mem_cons_self y ys)) hc)
        · exact hmin z hz2
      · intro z hz
        rcases List.mem_cons.1 hz with rfl | hz2
        · exact lt_of_le_of_lt (hmin y (List.mem_cons_self y ys)) hc
        · exact hstrict z hz2
    · have hb' : closerTo p b y = b := if_neg hc
      have hby : |b - p| ≤ |y - p| := not_lt.1 hc
      rw [hb']
      obtain ⟨l₁, l₂, hdec, hmin, hstrict⟩ := ih b
      cases l₁ with
      | nil =>
        rw [List.nil_append] at hdec
        have hcb : b = ys.foldl (closerTo p) b := (List.cons.inj hdec).1
        refine ⟨[], y :: ys, ?_, ?_, ?_⟩
        · rw [List.nil_append, ← hcb]
        · intro z hz
          rcases List.mem_cons.1 hz with rfl | hz2
          · exact hmin z (List.mem_cons_self z ys)
          · rcases List.mem_cons.1 hz2 with rfl | hz3
            · rw [← hcb]; exact hby
            · exact hmin z (List.mem_cons_of_mem b hz3)
        · intro z hz; cases hz
      | cons a l₁t =>
        rw [List.cons_append] at hdec
        have hba : b = a := (List.cons.inj hdec).1
        have hys : ys = l₁t ++ ys.foldl (closerTo p) b :: l₂ := (List.cons.inj hdec).2
        have hstrictb : |ys.foldl (closerTo p) b - p| < |b - p| := by
          have h5 := hstrict a (List.mem_cons_self a l₁t)
          rw [← hba] at h5
          exact h5
        refine ⟨b :: y :: l₁t, l₂, ?_, ?_, ?_⟩
        · rw [List.cons_append, List.cons_append, ← hys]
        · intro z hz
          rcases List.mem_cons.1 hz with rfl | hz2
          · exact hmin z (List.mem_cons_self z ys)
          · rcases List.mem_cons.1 hz2 with rfl | hz3
            · exact le_of_lt (lt_of_lt_of_le hstrictb hby)
            · exact hmin z (List.mem_cons_of_mem b hz3)
        · intro z hz
          rcases List.mem_cons.1 hz with rfl | hz2
          · exact hstrictb
          · rcases List.mem_cons.1 hz2 with rfl | hz3
            · exact lt_of_lt_of_le hstrictb hby
            · exact hstrict z (List.mem_cons_of_mem a hz3)

lemma minByDist_spec (p : ℚ) {l : List ℚ} (h : l ≠ []) :
    ∃ l₁ l₂ : List ℚ,
      l = l₁ ++ minByDist p l :: l₂ ∧
      (∀ y ∈ l, |minByDist p l - p| ≤ |y - p|) ∧
      (∀ y ∈ l₁, |minByDist p l - p| < |y - p|) := by
  cases l with
  | nil => exact absurd rfl h
  | cons x xs =>
    rw [minByDist]
    exact foldl_closerTo_spec p xs x

lemma foldl_closerTo_mem (p : ℚ) (xs : List ℚ) :
    ∀ b : ℚ, xs.foldl (closerTo p) b = b ∨ xs.foldl (closerTo p) b ∈ xs := by
  induction xs with
  | nil => intro b; exact Or.inl rfl
  | cons y ys ih =>
    intro b
    rw [List.foldl_cons]
    rcases ih (closerTo p b y) with h2 | h2
    · rw [h2]
      unfold closerTo
      by_cases hc : |y - p| < |b - p|
      · rw [if_pos hc]; exact Or.inr (List.mem_cons_self y ys)
      · rw [if_neg hc]; exact Or.inl rfl
    · exact Or.inr (List.mem_cons_of_mem y h2)

lemma minByDist_mem (p : ℚ) {l : List ℚ} (h : l ≠ []) : minByDist p l ∈ l := by
  cases l with
  | nil => exact absurd rfl h
  | cons x xs =>
    rw [minByDist]
    rcases foldl_closerTo_mem p xs x with h2 | h2
    · rw [h2]; exact List.mem_cons_self x xs
    · exact List.mem_cons_of_mem x h2

/-! ## Structural lemmas about smoothing_voter -/

lemma smoothing_voter_isOk (inputs : List ℚ) (prev : Option ℚ) (vt st : ℚ)
    (h : 3 ≤ inputs.length) :
    ∃ r, smoothing_voter inputs prev vt st = Except.ok r := by
  rw [smoothing_voter.eq_def, if_neg (by omega)]
  cases hscan : scanWindows (sorted_inputs inputs) (subsetLen inputs.length) vt
      (inputs.length - subsetLen inputs.length + 1) 0 with
  | some v => exact ⟨_, rfl⟩
  | none =>
    cases prev with
    | none => exact ⟨_, rfl⟩
    | some p =>
      dsimp only
      by_cases hd : |minByDist p inputs - p| ≤ st
      · rw [if_pos hd]; exact ⟨_, rfl⟩
      · rw [if_neg hd]; exact ⟨_, rfl⟩

/-! ## Claim theorems -/

lemma smoothing_voter_none_class {inputs : List ℚ} {prev : Option ℚ} {vt st : ℚ}
    {v : Option ℚ} (h : smoothing_voter inputs prev vt st = Except.ok (v, "none")) :
    v = none := by
  rw [smoothing_voter.eq_def] at h
  by_cases hn : inputs.length < 3
  · rw [if_pos hn] at h; simp at h
  · rw [if_neg hn] at h
    cases hscan : scanWindows (sorted_inputs inputs) (subsetLen inputs.length) vt
        (inputs.length - subsetLen inputs.length + 1) 0 with
    | some w => rw [hscan] at h; simp at h
    | none =>
      rw [hscan] at h
      cases prev with
      | none => simp at h
      | some p =>
        dsimp only at h
        by_cases hd : |minByDist p inputs - p| ≤ st
        · rw [if_pos hd] at h; simp at h
        · rw [if_neg hd] at h
          simp only [Except.ok.injEq, Prod.mk.injEq] at h
          exact h.1.symm

/-- C2: `smoothing_voter` raises the InsufficientInputs error iff the number
of inputs is less than three; for three or more inputs it returns a
(value, classification) pair without raising, regardless of thresholds and
of the previous output. -/
theorem smoothing_voter_error_iff (inputs : List ℚ) (prev : Option ℚ) (vt st : ℚ) :
    (∃ e, smoothing_voter inputs prev vt st = Except.error e) ↔ inputs.length < 3 := by
  constructor
  · rintro ⟨e, he⟩
    by_contra hn
    obtain ⟨r, hr⟩ := smoothing_voter_isOk inputs prev vt st (by omega)
    rw [hr] at he
    simp at he
  · intro h
    exact ⟨_, by rw [smoothing_voter.eq_def, if_pos h]⟩

/-- C9: for a fixed input list with at least three readings, any window
offset, and thresholds t₁ ≤ t₂, a window of the sorted inputs qualifying
under voterThreshold t₁ also qualifies under t₂: raising the threshold
never disqualifies a window. -/
theorem windowQualifies_mono (inputs : List ℚ) (i : ℕ) (t₁ t₂ : ℚ)
    (hn : 3 ≤ inputs.length) (ht : t₁ ≤ t₂)
    (hq : windowQualifies (sorted_inputs inputs) (subsetLen inputs.length) i t₁ = true) :
    windowQualifies (sorted_inputs inputs) (subsetLen inputs.length) i t₂ = true := by
  rw [windowQualifies, decide_eq_true_iff] at hq ⊢
  exact le_trans hq ht

unseal Rat.add Rat.sub Rat.mul Rat.inv Rat.ofScientific in
/-- Witness for C9: inputs [0, 10, 20], offset 0, thresholds 10 ≤ 15. -/
theorem windowQualifies_mono_witness :
    windowQualifies (sorted_inputs [0, 10, 20]) (subsetLen ([0, 10, 20] : List ℚ).length) 0 15
      = true :=
  windowQualifies_mono [0, 10, 20] 0 10 15 (by decide) (by decide) (by decide)

/-- C1: whenever `smoothing_voter` returns a non-null value (classification
'median' or 'smoothed'), that value is an element of the input list: the
algorithm never returns an interpolated or averaged value. -/
theorem smoothing_voter_value_mem (inputs : List ℚ) (prev : Option ℚ) (vt st : ℚ)
    (v : ℚ) (c : String)
    (h : smoothing_voter inputs prev vt st = Except.ok (some v, c)) :
    v ∈ inputs := by
  rw [smoothing_voter.eq_def] at h
  by_cases hn : inputs.length < 3
  · rw [if_pos hn] at h; simp at h
  · rw [if_neg hn] at h
    have hlen : (sorted_inputs inputs).length = inputs.length := by
      rw [sorted_inputs, List.length_insertionSort]
    have hsmem : ∀ x, x ∈ sorted_inputs inputs → x ∈ inputs := by
      intro x hx
      rw [sorted_inputs] at hx
      exact (List.mem_insertionSort _).1 hx
    have hm2 : 2 ≤ subsetLen inputs.length := by unfold subsetLen; omega
    have hmn : subsetLen inputs.length ≤ inputs.length := by unfold subsetLen; omega
    cases hscan : scanWindows (sorted_inputs inputs) (subsetLen inputs.length) vt
        (inputs.length - subsetLen inputs.length + 1) 0 with
    | some w =>
      rw [hscan] at h
      dsimp only at h
      simp only [Except.ok.injEq, Prod.mk.injEq, Option.some.injEq] at h
      obtain ⟨hv, -⟩ := h
      obtain ⟨j, -, hjlt, -, hw⟩ := scanWindows_eq_some _ _ _ _ _ _ hscan
      have hjm : j + subsetLen inputs.length ≤ (sorted_inputs inputs).length := by
        rw [hlen]; omega
      have hwlen : (((sorted_inputs inputs).drop j).take (subsetLen inputs.length)).length
          = subsetLen inputs.length := slice_length _ _ _ hjm
      have hwin : w ∈ ((sorted_inputs inputs).drop j).take (subsetLen inputs.length) := by
        rw [hw]
        exact getD_mem (by rw [hwlen]; omega)
      exact hsmem v (hv ▸ List.mem_of_mem_drop (List.mem_of_mem_take hwin))
    | none =>
      rw [hscan] at h
      cases prev with
      | none =>
        dsimp only at h
        simp only [Except.ok.injEq, Prod.mk.injEq, Option.some.injEq] at h
        obtain ⟨hv, -⟩ := h
        refine hsmem v (hv ▸ getD_mem ?_)
        rw [hlen]
        omega
      | some p =>
        dsimp only at h
        by_cases hd : |minByDist p inputs - p| ≤ st
        · rw [if_pos hd] at h
          simp only [Except.ok.injEq, Prod.mk.injEq, Option.some.injEq] at h
          obtain ⟨hv, -⟩ := h
          have hne : inputs ≠ [] := by
            intro hcon; rw [hcon] at hn; simp at hn
          exact hv ▸ minByDist_mem p hne
        · rw [if_neg hd] at h
          simp at h

unseal Rat.add Rat.sub Rat.mul Rat.inv Rat.ofScientific in
/-- Witness for C1: on inputs [1, 2, 3] with no previous output the
returned value 2 is an element of the inputs. -/
theorem smoothing_voter_value_mem_witness : (2 : ℚ) ∈ ([1, 2, 3] : List ℚ) :=
  smoothing_voter_value_mem [1, 2, 3] none 15 1 2 "median" (by decide)

/-- C3: for inputs with n ≥ 3, if i₀ ≤ n - m is the smallest window offset
whose window of the sorted inputs has spread sorted[i₀+m-1] - sorted[i₀]
within voterThreshold, `smoothing_voter` returns that window's lower
median (sorted[i₀ + m/2], 'median'); no later window affects the
result. -/
theorem smoothing_voter_first_window (inputs : List ℚ) (prev : Option ℚ)
    (vt st : ℚ) (i₀ : ℕ) (hn : 3 ≤ inputs.length)
    (hi : i₀ ≤ inputs.length - subsetLen inputs.length)
    (hq : (sorted_inputs inputs).getD (i₀ + subsetLen inputs.length - 1) 0
        - (sorted_inputs inputs).getD i₀ 0 ≤ vt)
    (hfirst : ∀ j < i₀,
      ¬ ((sorted_inputs inputs).getD (j + subsetLen inputs.length - 1) 0
        - (sorted_inputs inputs).getD j 0 ≤ vt)) :
    smoothing_voter inputs prev vt st
      = Except.ok
          (some ((sorted_inputs inputs).getD (i₀ + subsetLen inputs.length / 2) 0),
           "median") := by
  have hsorted : (sorted_inputs inputs).Sorted (· ≤ ·) :=
    List.sorted_insertionSort _ _
  have hlen : (sorted_inputs inputs).length = inputs.length := by
    rw [sorted_inputs, List.length_insertionSort]
  have hm2 : 2 ≤ subsetLen inputs.length := by unfold subsetLen; omega
  have hmn : subsetLen inputs.length ≤ inputs.length := by unfold subsetLen; omega
  have hq' : windowQualifies (sorted_inputs inputs) (subsetLen inputs.length) i₀ vt
      = true :=
    (windowQualifies_sorted hsorted (by omega) (by rw [hlen]; omega)).2 hq
  have hfirst' : ∀ k, 0 ≤ k → k < i₀ →
      windowQualifies (sorted_inputs inputs) (subsetLen inputs.length) k vt = false := by
    intro k _ hk
    cases hqk : windowQualifies (sorted_inputs inputs) (subsetLen inputs.length) k vt with
    | false => rfl
    | true =>
      exact absurd
        ((windowQualifies_sorted hsorted (by omega) (by rw [hlen]; omega)).1 hqk)
        (hfirst k hk)
  have hscan : scanWindows (sorted_inputs inputs) (subsetLen inputs.length) vt
      (inputs.length - subsetLen inputs.length + 1) 0
      = some ((((sorted_inputs inputs).drop i₀).take (subsetLen inputs.length)).getD
          (subsetLen inputs.length / 2) 0) :=
    scanWindows_first _ _ _ _ 0 i₀ (Nat.zero_le _) (by omega) hq' hfirst'
  rw [smoothing_voter.eq_def, if_neg (by omega), hscan]
  dsimp only
  rw [slice_getD _ i₀ (subsetLen inputs.length) (subsetLen inputs.length / 2)
    (by omega) (by rw [hlen]; omega)]

unseal Rat.add Rat.sub Rat.mul Rat.inv Rat.ofScientific in
/-- Witness for C3: inputs [0, 10, 20], threshold 15, first qualifying
offset 0: the result is the lower median of the first window. -/
theorem smoothing_voter_first_window_witness :
    smoothing_voter [0, 10, 20] none 15 1
      = Except.ok
          (some ((sorted_inputs [0, 10, 20]).getD
            (0 + subsetLen ([0, 10, 20] : List ℚ).length / 2) 0),
           "median") :=
  smoothing_voter_first_window [0, 10, 20] none 15 1 0 (by decide) (by decide)
    (by decide) (fun j hj => absurd hj (by omega))

/-- C6: when no window of the sorted inputs qualifies and the previous
output is absent, `smoothing_voter` returns the lower median of the full
sorted input with classification 'median' (not a separate fallback
tag). -/
theorem smoothing_voter_fallback_median (inputs : List ℚ) (vt st : ℚ)
    (hn : 3 ≤ inputs.length)
    (hnoq : ∀ i ≤ inputs.length - subsetLen inputs.length,
      windowQualifies (sorted_inputs inputs) (subsetLen inputs.length) i vt = false) :
    smoothing_voter inputs none vt st
      = Except.ok (some ((sorted_inputs inputs).getD (inputs.length / 2) 0), "median") := by
  have hscan : scanWindows (sorted_inputs inputs) (subsetLen inputs.length) vt
      (inputs.length - subsetLen inputs.length + 1) 0 = none :=
    scanWindows_eq_none _ _ _ _ _ (fun j hj0 hjlt => hnoq j (by omega))
  rw [smoothing_voter.eq_def, if_neg (by omega), hscan]

unseal Rat.add Rat.sub Rat.mul Rat.inv Rat.ofScientific in
/-- Witness for C6: inputs [0, 10, 20] with threshold 1 have no qualifying
window; with no previous output the fallback median 10 is returned. -/
theorem smoothing_voter_fallback_median_witness :
    smoothing_voter [0, 10, 20] none 1 1
      = Except.ok
          (some ((sorted_inputs [0, 10, 20]).getD (([0, 10, 20] : List ℚ).length / 2) 0),
           "median") :=
  smoothing_voter_fallback_median [0, 10, 20] 1 1 (by decide) (by decide)

/-- C7: when no window of the sorted inputs qualifies and a previous output
p is present, the input closest to p is chosen (first occurrence in input
order wins ties, as witnessed by the decomposition): if its distance to p
is within smoothingThreshold the result is (closest, 'smoothed'),
otherwise (null, 'none'). -/
theorem smoothing_voter_smoothing_branch (inputs : List ℚ) (p : ℚ) (vt st : ℚ)
    (hn : 3 ≤ inputs.length)
    (hnoq : ∀ i ≤ inputs.length - subsetLen inputs.length,
      windowQualifies (sorted_inputs inputs) (subsetLen inputs.length) i vt = false) :
    (smoothing_voter inputs (some p) vt st
      = if |minByDist p inputs - p| ≤ st then
          Except.ok (some (minByDist p inputs), "smoothed")
        else Except.ok (none, "none")) ∧
    (∀ y ∈ inputs, |minByDist p inputs - p| ≤ |y - p|) ∧
    (∃ l₁ l₂ : List ℚ, inputs = l₁ ++ minByDist p inputs :: l₂ ∧
      ∀ y ∈ l₁, |minByDist p inputs - p| < |y - p|) := by
  have hne : inputs ≠ [] := by
    intro hcon; rw [hcon] at hn; simp at hn
  obtain ⟨l₁, l₂, hdec, hmin, hstrict⟩ := minByDist_spec p hne
  have hscan : scanWindows (sorted_inputs inputs) (subsetLen inputs.length) vt
      (inputs.length - subsetLen inputs.length + 1) 0 = none :=
    scanWindows_eq_none _ _ _ _ _ (fun j hj0 hjlt => hnoq j (by omega))
  refine ⟨?_, hmin, l₁, l₂, hdec, hstrict⟩
  rw [smoothing_voter.eq_def, if_neg (by omega), hscan]

unseal Rat.add Rat.sub Rat.mul Rat.inv Rat.ofScientific in
/-- Witness for C7: inputs [0, 10, 20], previous output 4, voterThreshold 1
(no window qualifies), smoothingThreshold 100. -/
theorem smoothing_voter_smoothing_branch_witness :
    (smoothing_voter [0, 10, 20] (some 4) 1 100
      = if |minByDist 4 [0, 10, 20] - 4| ≤ 100 then
          Except.ok (some (minByDist 4 [0, 10, 20]), "smoothed")
        else Except.ok (none, "none")) ∧
    (∀ y ∈ ([0, 10, 20] : List ℚ), |minByDist 4 [0, 10, 20] - 4| ≤ |y - 4|) ∧
    (∃ l₁ l₂ : List ℚ, ([0, 10, 20] : List ℚ) = l₁ ++ minByDist 4 [0, 10, 20] :: l₂ ∧
      ∀ y ∈ l₁, |minByDist 4 [0, 10, 20] - 4| < |y - 4|) :=
  smoothing_voter_smoothing_branch [0, 10, 20] 4 1 100 (by decide) (by decide)

/-- C5 counterexample: the claim says the window length equals
ceil((n+1)/2), but at n = 4 the code computes (4+1)/2 = 2 with floor
division while ceil((4+1)/2) = 3. -/
theorem subsetLen_ceil_counterexample :
    (subsetLen 4 : ℤ) ≠ ⌈((4 : ℚ) + 1) / 2⌉ := by
  have h : ⌈((4 : ℚ) + 1) / 2⌉ = 3 := by
    rw [Int.ceil_eq_iff]
    norm_num
  rw [h]
  decide

/-- C5 amended: for every n ≥ 3 the window length used by `smoothing_voter`
is (n+1)/2 with integer floor division (in particular m = 2, 3, 4 for
n = 3, 5, 7), and for odd n this value equals ceil((n+1)/2); for even n
the code floors rather than ceils. -/
theorem subsetLen_amended (n : ℕ) (hn : 3 ≤ n) :
    subsetLen n = (n + 1) / 2 ∧
    subsetLen 3 = 2 ∧ subsetLen 5 = 3 ∧ subsetLen 7 = 4 ∧
    (Odd n → (subsetLen n : ℤ) = ⌈((n : ℚ) + 1) / 2⌉) := by
  refine ⟨rfl, rfl, rfl, rfl, ?_⟩
  intro hodd
  obtain ⟨k, hk⟩ := hodd
  have hn2 : n = 2 * k + 1 := by omega
  subst hn2
  have h1 : subsetLen (2 * k + 1) = k + 1 := by unfold subsetLen; omega
  have h2 : (((2 * k + 1 : ℕ) : ℚ) + 1) / 2 = ((k + 1 : ℤ) : ℚ) := by
    push_cast
    ring
  rw [h1, h2, Int.ceil_intCast]
  omega

/-- Witness for C5 amended at n = 5. -/
theorem subsetLen_amended_witness :
    subsetLen 5 = (5 + 1) / 2 ∧
    subsetLen 3 = 2 ∧ subsetLen 5 = 3 ∧ subsetLen 7 = 4 ∧
    (Odd 5 → (subsetLen 5 : ℤ) = ⌈((5 : ℚ) + 1) / 2⌉) :=
  subsetLen_amended 5 (by decide)

unseal Rat.add Rat.sub Rat.mul Rat.inv Rat.ofScientific in
/-- C4 counterexample: at inputs [10.0, 10.05, 50.0] with voterThreshold
0.5, previous 10.02 and smoothingThreshold 1.0, the first window
[10.0, 10.05] of the sorted inputs has spread 0.05 ≤ 0.5 and qualifies, so
the code returns (10.05, 'median'), not (10.0, 'smoothed') as the claim
states. -/
theorem scenarioC_counterexample :
    smoothing_voter [10.0, 10.05, 50.0] (some 10.02) 0.5 1.0
      = Except.ok (some 10.05, "median") ∧
    smoothing_voter [10.0, 10.05, 50.0] (some 10.02) 0.5 1.0
      ≠ Except.ok (some 10.0, "smoothed") := by decide

/-- C8: after an invocation of the estimator by the state-holding caller
(at least three gathered values), the stored previous output is
overwritten with the returned value exactly when that value is non-null
and is left unchanged when it is null; a 'none' classification implies a
null value and an unchanged previous output. -/
theorem update_prev_output_rule (st : GroupState) (vt sth : ℚ)
    (vals : List ℚ) (v : Option ℚ) (c : String)
    (hn : 3 ≤ vals.length)
    (hsv : smoothing_voter vals st.prev_output vt sth = Except.ok (v, c)) :
    (∀ x, v = some x →
      (async_update_group_state st vt sth vals).prev_output = some x) ∧
    (v = none →
      (async_update_group_state st vt sth vals).prev_output = st.prev_output) ∧
    (c = "none" → v = none ∧
      (async_update_group_state st vt sth vals).prev_output = st.prev_output) := by
  have hne : ¬ vals.isEmpty := by
    intro hcon
    rw [List.isEmpty_iff] at hcon
    rw [hcon] at hn
    simp at hn
  have hcond : (!vals.isEmpty && decide (3 ≤ vals.length)) = true := by
    simp [hne, hn]
  have hupd : (async_update_group_state st vt sth vals).prev_output
      = if v.isSome then v else st.prev_output := by
    rw [async_update_group_state.eq_def, if_pos hcond, hsv]
  refine ⟨?_, ?_, ?_⟩
  · intro x hx
    rw [hupd, hx]
    rfl
  · intro hx
    rw [hupd, hx]
    rfl
  · intro hc
    have hv : v = none := smoothing_voter_none_class (hc ▸ hsv)
    exact ⟨hv, by rw [hupd, hv]; rfl⟩

unseal Rat.add Rat.sub Rat.mul Rat.inv Rat.ofScientific in
/-- Witness for C8: caller state with previous output 5, inputs [0, 10, 20]
producing (10, 'median'): the previous output is overwritten with 10. -/
theorem update_prev_output_rule_witness :
    (∀ x, (some (10 : ℚ) : Option ℚ) = some x →
      (async_update_group_state ⟨some 5, none, "none", false⟩ 15 1 [0, 10, 20]).prev_output
        = some x) ∧
    ((some (10 : ℚ) : Option ℚ) = none →
      (async_update_group_state ⟨some 5, none, "none", false⟩ 15 1 [0, 10, 20]).prev_output
        = (⟨some 5, none, "none", false⟩ : GroupState).prev_output) ∧
    ("median" = "none" → (some (10 : ℚ) : Option ℚ) = none ∧
      (async_update_group_state ⟨some 5, none, "none", false⟩ 15 1 [0, 10, 20]).prev_output
        = (⟨some 5, none, "none", false⟩ : GroupState).prev_output) :=
  update_prev_output_rule ⟨some 5, none, "none", false⟩ 15 1 [0, 10, 20]
    (some 10) "median" (by decide) (by decide)

/-- C10: with fewer than three gathered numeric readings the caller sets
the native value to null and the classification to 'none', marks itself
unavailable, keeps the previous output unchanged, and returns before
calling `smoothing_voter`; with three or more readings `smoothing_voter`
never raises, so the caller's ValueError handler branch is unreachable. -/
theorem update_insufficient_guard (st : GroupState) (vt sth : ℚ) (vals : List ℚ) :
    (vals.length < 3 →
      (async_update_group_state st vt sth vals).native_value = none ∧
      (async_update_group_state st vt sth vals).calculation_type = "none" ∧
      (async_update_group_state st vt sth vals).available = false ∧
      (async_update_group_state st vt sth vals).prev_output = st.prev_output) ∧
    (3 ≤ vals.length →
      ∃ r, smoothing_voter vals st.prev_output vt sth = Except.ok r) := by
  constructor
  · intro h
    have hlt : ¬ (3 ≤ vals.length) := by omega
    have hcond : (!vals.isEmpty && decide (3 ≤ vals.length)) = false := by
      simp [hlt]
    rw [async_update_group_state.eq_def, if_neg (by simp [hcond])]
    exact ⟨rfl, rfl, rfl, rfl⟩
  · intro h
    exact smoothing_voter_isOk _ _ _ _ h

unseal Rat.add Rat.sub Rat.mul Rat.inv Rat.ofScientific in
/-- Witness for C10: with two readings the state is wiped but the previous
output 5 is kept; with three readings the voter returns without raising. -/
theorem update_insufficient_guard_witness :
    ((async_update_group_state ⟨some 5, some 5, "median", true⟩ 1 1 [1, 2]).native_value
        = none ∧
      (async_update_group_state ⟨some 5, some 5, "median", true⟩ 1 1 [1, 2]).calculation_type
        = "none" ∧
      (async_update_group_state ⟨some 5, some 5, "median", true⟩ 1 1 [1, 2]).available
        = false ∧
      (async_update_group_state ⟨some 5, some 5, "median", true⟩ 1 1 [1, 2]).prev_output
        = (⟨some 5, some 5, "median", true⟩ : GroupState).prev_output) ∧
    (∃ r, smoothing_voter [1, 2, 3]
        (⟨some 5, some 5, "median", true⟩ : GroupState).prev_output 1 1 = Except.ok r) :=
  ⟨(update_insufficient_guard ⟨some 5, some 5, "median", true⟩ 1 1 [1, 2]).1 (by decide),
   (update_insufficient_guard ⟨some 5, some 5, "median", true⟩ 1 1 [1, 2, 3]).2 (by decide)⟩

unseal Rat.add Rat.sub Rat.mul Rat.inv Rat.ofScientific in
/-- C4 amended: with voterThreshold lowered to 0.01 the scenario behaves as
the claim describes: no window qualifies (spreads 0.05 and 39.95), the
input closest to the previous output 10.02 is 10.0 at distance
0.02 ≤ 1.0, and the result is (10.0, 'smoothed'). -/
theorem scenarioC_amended :
    (∀ i ≤ 1, windowQualifies (sorted_inputs [10.0, 10.05, 50.0])
      (subsetLen ([10.0, 10.05, 50.0] : List ℚ).length) i 0.01 = false) ∧
    minByDist 10.02 [10.0, 10.05, 50.0] = 10.0 ∧
    |(10.0 : ℚ) - 10.02| ≤ 1.0 ∧
    smoothing_voter [10.0, 10.05, 50.0] (some 10.02) 0.01 1.0
      = Except.ok (some 10.0, "smoothed") := by decide

end SmoothingVoter
